import Mathlib

/-!
Verification of the `PointsRankingMapper` engine
(`src/model/math/points_ranking_mapper.py`).

Shallow embedding conventions:
* `numpy.float64` values are modelled as exact rationals `ℚ`.
* External numeric library routines (`np.sqrt`, `scipy.stats.norm.cdf`,
  `scipy.stats.norm.ppf`, `scipy.optimize.minimize`) are modelled as oracle
  parameters collected in a `NumOps` structure.  Theorems that depend on an
  analytic property of one of these routines (monotonicity of the normal CDF,
  nonnegativity of `sqrt`, ...) take that property as an explicit hypothesis.
* Python exceptions are modelled with `Except PyError`; a function that
  contains no `raise` and cannot propagate one returns a bare value.
* `numpy` arrays are modelled as `List ℚ`.
-/

deriving instance DecidableEq for Except

/-- The Python exception classes raised by the mapper code. -/
inductive PyError
  | valueError (msg : String)
  | runtimeError (msg : String)
  | indexError (msg : String)
deriving DecidableEq, Repr

/-- Result object of `scipy.optimize.minimize`: convergence flag and the
minimizing argument vector (`result.success`, `result.x`). -/
structure OptimizeResult where
  success : Bool
  x : List ℚ
deriving DecidableEq, Repr

/-- Oracles for the external numeric routines used by the mapper:
`sqrt` is `np.sqrt`, `normCdf` is `scipy.stats.norm.cdf`, `normPpf` is
`scipy.stats.norm.ppf`, and `minimize` is `scipy.optimize.minimize`
(Nelder-Mead, `tol=1e-2`) applied to a scalar objective with a scalar seed. -/
structure NumOps where
  sqrt : ℚ → ℚ
  normCdf : ℚ → ℚ
  normPpf : ℚ → ℚ
  minimize : (ℚ → ℚ) → ℚ → OptimizeResult

/-- `np.interp x xp fp`: piecewise-linear interpolation with clamped
extrapolation.  `xp` is the ascending knot axis, `fp` the knot values.
Outside the knot range the nearest boundary value is returned. -/
def ratInterp (x : ℚ) : List ℚ → List ℚ → ℚ
  | x0 :: x1 :: xs, f0 :: f1 :: fs =>
    if x ≤ x0 then f0
    else if x ≤ x1 then f0 + (x - x0) * (f1 - f0) / (x1 - x0)
    else ratInterp x (x1 :: xs) (f1 :: fs)
  | _ :: _, f0 :: _ => f0
  | _, _ => 0

/-- The 7-point symmetric Blackman window
`0.42 - 0.5*cos(2*pi*k/6) + 0.08*cos(4*pi*k/6)`, `k = 0..6`; at these
arguments the cosines are rational, so the weights are exact rationals. -/
def blackmanWeights : List ℚ := [0, 13/100, 63/100, 1, 63/100, 13/100, 0]

/-- Weighted sum of the 7-point window centered at index `i` (only evaluated
when the full window `i-3 .. i+3` is in bounds). -/
def windowSum (points : List ℚ) (i : ℕ) : ℚ :=
  ((List.range 7).map (fun k => blackmanWeights.getD k 0 * points.getD (i - 3 + k) 0)).sum

/-- `pd.Series(points).rolling(7, win_type="blackman", center=True,
closed="both").mean().fillna(series_points)`: the centered weighted moving
average, requiring all 7 window samples in bounds (`min_periods` defaults to
the window size); indices whose window is incomplete produce NaN, which
`fillna` replaces with the raw input value.  The weight total is `63/25`. -/
def smoothPoints (points : List ℚ) : List ℚ :=
  (List.range points.length).map (fun i =>
    if 3 ≤ i ∧ i + 3 < points.length then windowSum points i / (63/25)
    else points.getD i 0)

/-- `np.add(smoothed[1:], smoothed[:-1]) / 2`: midpoints of adjacent
smoothed points. -/
def binsOf (s : List ℚ) : List ℚ :=
  (List.zipWith (· + ·) (s.drop 1) (s.dropLast)).map (fun q => q / 2)

/-- `np.array(range(1, n + 1))` as rationals. -/
def ranksOf (n : ℕ) : List ℚ :=
  (List.range n).map (fun i : ℕ => (i : ℚ) + 1)

/-- The immutable state of a `PointsRankingMapper` after `__init__`. -/
structure Mapper where
  smoothed_points : List ℚ
  points_bins : List ℚ
  ranks : List ℚ
  points_dist_type : String
deriving DecidableEq, Repr

/-- `PointsRankingMapper._valid_points_dist_types`. -/
def validPointsDistTypes : List String := ["gaussian"]

/-- `PointsRankingMapper.__init__`: smooth the raw table, build bins and
ranks, then validate the distribution type (raising `ValueError` for an
unknown type). -/
def mkMapper (points : List ℚ) (points_dist_type : String) : Except PyError Mapper :=
  let smoothed := smoothPoints points
  if points_dist_type ∈ validPointsDistTypes then
    .ok ⟨smoothed, binsOf smoothed, ranksOf smoothed.length, points_dist_type⟩
  else .error (.valueError "Points distribution is invalid")

/-- `points_to_rank_mean` on a scalar: `np.interp` against the flipped
table (`np.flip` of both arrays, since interpolation needs an ascending
independent axis). -/
def points_to_rank_mean (m : Mapper) (p : ℚ) : ℚ :=
  ratInterp p m.smoothed_points.reverse m.ranks.reverse

/-- `rank_to_points_mean` on a scalar: `np.interp` against `(ranks,
smoothed_points)` directly. -/
def rank_to_points_mean (m : Mapper) (r : ℚ) : ℚ :=
  ratInterp r m.ranks m.smoothed_points

/-- `-np.diff l`: the list of differences `l[i] - l[i+1]`. -/
def negDiff : List ℚ → List ℚ
  | a :: b :: rest => (a - b) :: negDiff (b :: rest)
  | _ => []

/-- `np.r_[1 - bin_cdfs[0], -np.diff(bin_cdfs), bin_cdfs[-1]]`: the per-rank
probability vector assembled from the cumulative bin probabilities. -/
def rankProbs (bin_cdfs : List ℚ) : List ℚ :=
  match bin_cdfs with
  | [] => []
  | c0 :: rest => (1 - c0) :: (negDiff (c0 :: rest) ++ [(c0 :: rest).getLastD 0])

/-- `scp.stats.norm.cdf((self._points_bins - points_mean) /
np.sqrt(points_variance))`: the gaussian-branch bin CDF values. -/
def binCdfs (ops : NumOps) (m : Mapper) (points_variance points_mean : ℚ) : List ℚ :=
  m.points_bins.map (fun b => ops.normCdf ((b - points_mean) / ops.sqrt points_variance))

/-- The value of `bin_cdfs` after the `match` on the distribution type: the
pre-allocated `np.zeros(n - 2)` survives only when no case matches. -/
def binCdfsBranch (ops : NumOps) (m : Mapper) (points_variance points_mean : ℚ) : List ℚ :=
  if m.points_dist_type = "gaussian" then binCdfs ops m points_variance points_mean
  else List.replicate (m.smoothed_points.length - 2) 0

/-- The numeric value computed by `points_to_rank_variance`: the
probability-weighted sum of squared deviations of each rank from the rank
implied by the points mean. -/
def points_to_rank_variance_val (ops : NumOps) (m : Mapper) (pv pm : ℚ) : ℚ :=
  let rank_probs := rankProbs (binCdfsBranch ops m pv pm)
  let rank_mean := points_to_rank_mean m pm
  ((m.ranks.zip rank_probs).map (fun rp => (rp.1 - rank_mean) ^ 2 * rp.2)).sum

/-- `points_to_rank_variance`.  The function body contains no `raise` and no
validation of `points_variance`; the only failure modes are the ones numpy
itself raises on degenerate mappers: `np.zeros(n - 2)` with `n < 2` raises
`ValueError` (negative dimensions), and `bin_cdfs[0]` / `bin_cdfs[-1]` on an
empty array raise `IndexError`. -/
def points_to_rank_variance (ops : NumOps) (m : Mapper) (points_variance points_mean : ℚ) :
    Except PyError ℚ :=
  if m.smoothed_points.length < 2 then
    .error (.valueError "negative dimensions are not allowed")
  else
    match binCdfsBranch ops m points_variance points_mean with
    | [] => .error (.indexError "index 0 is out of bounds")
    | _ :: _ => .ok (points_to_rank_variance_val ops m points_variance points_mean)

/-- The initial guess of `rank_to_points_variance`:
`(rank_to_points_mean(rank_mean + sqrt(rank_variance)) -
rank_to_points_mean(rank_mean)) ** 2`. -/
def initialVarGuess (ops : NumOps) (m : Mapper) (rank_variance rank_mean : ℚ) : ℚ :=
  (rank_to_points_mean m (rank_mean + ops.sqrt rank_variance) - rank_to_points_mean m rank_mean) ^ 2

/-- `_points_to_rank_variance_error` with `args = (rank_to_points_mean
rank_mean, rank_variance)` already applied: the scalar objective handed to
`scipy.optimize.minimize`. -/
def rankVarObjective (ops : NumOps) (m : Mapper) (rank_variance rank_mean : ℚ) : ℚ → ℚ :=
  fun pv => |points_to_rank_variance_val ops m pv (rank_to_points_mean m rank_mean) - rank_variance|

/-- `rank_to_points_variance`: seed the search, minimize the absolute rank
variance error, raise `RuntimeError` when the search does not converge, and
return `result.x[0]` when it does.  The leading `match` models exception
propagation out of the objective: the minimizer evaluates the objective, and
`points_to_rank_variance` raises on the same (input-independent) degenerate
mappers at every evaluation point, so one probe is faithful. -/
def rank_to_points_variance (ops : NumOps) (m : Mapper) (rank_variance rank_mean : ℚ) :
    Except PyError ℚ :=
  match points_to_rank_variance ops m (initialVarGuess ops m rank_variance rank_mean)
      (rank_to_points_mean m rank_mean) with
  | .error e => .error e
  | .ok _ =>
    let result := ops.minimize (rankVarObjective ops m rank_variance rank_mean)
      (initialVarGuess ops m rank_variance rank_mean)
    if result.success then .ok (result.x.getD 0 0)
    else .error (.runtimeError "Minimization of rank variance error could not converge")

/-- The list comprehension
`[self.rank_to_points_variance(var, mean) for mean, var in zip(...)]`:
sequential evaluation, the first exception propagates. -/
def solveVariances (ops : NumOps) (m : Mapper) : List (ℚ × ℚ) → Except PyError (List ℚ)
  | [] => .ok []
  | mv :: rest =>
    match rank_to_points_variance ops m mv.2 mv.1, solveVariances ops m rest with
    | .ok v, .ok vs => .ok (v :: vs)
    | .error e, _ => .error e
    | .ok _, .error e => .error e

/-- `rank_confidence_intervals`: validate shapes and the confidence level,
solve each entry for its points variance, and assemble
`np.transpose(np.vstack((high_ranks, low_ranks)))` (row `i` is
`(high_ranks[i], low_ranks[i])`).  When no distribution case matches, the
pre-allocated `np.zeros([n, 2])` is returned unchanged. -/
def rank_confidence_intervals (ops : NumOps) (m : Mapper)
    (rank_means rank_variances : List ℚ) (confidence : ℚ) :
    Except PyError (List (ℚ × ℚ)) :=
  if rank_means.length ≠ rank_variances.length then
    .error (.valueError "Rank Mean shape and Rank Variances shape do not match")
  else if ¬ (0 ≤ confidence ∧ confidence ≤ 1) then
    .error (.valueError "Confidence should be in interval of 0-1")
  else
    let point_means := rank_means.map (rank_to_points_mean m)
    match solveVariances ops m (rank_means.zip rank_variances) with
    | .error e => .error e
    | .ok solved =>
      let point_stdevs := solved.map ops.sqrt
      if m.points_dist_type = "gaussian" then
        let z := ops.normPpf ((1 + confidence) / 2)
        .ok (((point_means.zip point_stdevs).map
                (fun ms => points_to_rank_mean m (ms.1 + ms.2 * z))).zip
             ((point_means.zip point_stdevs).map
                (fun ms => points_to_rank_mean m (ms.1 - ms.2 * z))))
      else .ok (List.replicate rank_means.length ((0 : ℚ), (0 : ℚ)))

/-! ### Concrete instantiations used by witnesses

The oracles below are computable stand-ins satisfying the interface
properties the theorems assume of the library routines (a monotone CDF with
values in `[0,1]`, a nonnegative square root, a minimizer that reports
success). -/

/-- A computable monotone stand-in for the standard normal CDF, with range
inside `[0, 1]`. -/
def clampCdf (z : ℚ) : ℚ := max 0 (min 1 ((z + 3) / 6))

/-- A computable nonnegative stand-in for `np.sqrt`. -/
def ratSqrt (q : ℚ) : ℚ := max q 0

/-- Concrete oracle bundle for witnesses: the identity inverse CDF and a
minimizer that always converges to its seed. -/
def testOps : NumOps :=
  ⟨ratSqrt, clampCdf, fun q => q, fun _ x0 => ⟨true, [x0]⟩⟩

/-- A small strictly decreasing points table (shorter than the smoothing
window, so smoothing falls back to the raw values everywhere). -/
def tbl4 : List ℚ := [10, 8, 6, 4]

/-- The mapper built from `tbl4`. -/
def M4 : Mapper := ⟨[10, 8, 6, 4], [9, 7, 5], [1, 2, 3, 4], "gaussian"⟩

/-- `List.range 4`, evaluated (kernel reduction handles `ℕ` but `simp` does
not unfold `range` at numerals). -/
lemma range_four : List.range 4 = [0, 1, 2, 3] := rfl

/-- `List.range 1`, evaluated. -/
lemma range_one : List.range 1 = [0] := rfl

/-! ### Interpolation lemmas -/

/-- On a segment with increasing knots and non-increasing values, the
interpolated value is at most the left value. -/
lemma segment_le_left (x0 x1 f0 f1 x : ℚ) (h01 : x0 < x1) (hx0 : x0 ≤ x) (hf : f1 ≤ f0) :
    f0 + (x - x0) * (f1 - f0) / (x1 - x0) ≤ f0 := by
  have h1 : (x - x0) * (f1 - f0) ≤ 0 :=
    mul_nonpos_of_nonneg_of_nonpos (by linarith) (by linarith)
  have h2 : (x - x0) * (f1 - f0) / (x1 - x0) ≤ 0 :=
    div_nonpos_of_nonpos_of_nonneg h1 (by linarith)
  linarith

/-- On a segment with increasing knots and non-increasing values, the
interpolated value is at least the right value. -/
lemma segment_ge_right (x0 x1 f0 f1 x : ℚ) (h01 : x0 < x1) (hx1 : x ≤ x1) (hf : f1 ≤ f0) :
    f1 ≤ f0 + (x - x0) * (f1 - f0) / (x1 - x0) := by
  rw [← sub_nonneg]
  have hne : x1 - x0 ≠ 0 := ne_of_gt (by linarith)
  have key : f0 + (x - x0) * (f1 - f0) / (x1 - x0) - f1 = (x1 - x) * (f0 - f1) / (x1 - x0) := by
    field_simp
    ring
  rw [key]
  exact div_nonneg (mul_nonneg (by linarith) (by linarith)) (by linarith)

/-- The segment formula is antitone in the query point when the values are
non-increasing. -/
lemma segment_anti (x0 x1 f0 f1 x y : ℚ) (h01 : x0 < x1) (hxy : x ≤ y) (hf : f1 ≤ f0) :
    f0 + (y - x0) * (f1 - f0) / (x1 - x0) ≤ f0 + (x - x0) * (f1 - f0) / (x1 - x0) := by
  rw [← sub_nonneg]
  have hne : x1 - x0 ≠ 0 := ne_of_gt (by linarith)
  have key : f0 + (x - x0) * (f1 - f0) / (x1 - x0) - (f0 + (y - x0) * (f1 - f0) / (x1 - x0)) =
      (y - x) * (f0 - f1) / (x1 - x0) := by
    field_simp
    ring
  rw [key]
  exact div_nonneg (mul_nonneg (by linarith) (by linarith)) (by linarith)

/-- With ascending knots and non-increasing values, every interpolated value
is at most the first value. -/
lemma ratInterp_le_head (x : ℚ) : ∀ (xs : List ℚ) (x0 : ℚ) (fs : List ℚ) (f0 : ℚ),
    (x0 :: xs).Pairwise (· ≤ ·) → (f0 :: fs).Pairwise (fun a b => b ≤ a) →
    ratInterp x (x0 :: xs) (f0 :: fs) ≤ f0 := by
  intro xs
  induction xs with
  | nil => intro x0 fs f0 _ _; cases fs <;> exact le_refl f0
  | cons x1 xs ih =>
    intro x0 fs f0 hxp hfp
    cases fs with
    | nil => exact le_refl f0
    | cons f1 fs =>
      have hf10 : f1 ≤ f0 := (List.pairwise_cons.mp hfp).1 f1 (List.mem_cons_self _ _)
      rw [ratInterp]
      split
      · exact le_refl f0
      next hx0 =>
        split
        next hx1 =>
          exact segment_le_left x0 x1 f0 f1 x (lt_of_lt_of_le (not_le.mp hx0) hx1)
            (le_of_not_le hx0) hf10
        next =>
          exact le_trans (ih x1 fs f1 hxp.of_cons hfp.of_cons) hf10

/-- With ascending knots and non-increasing values, interpolation is
antitone in the query point. -/
lemma ratInterp_anti {x y : ℚ} (hxy : x ≤ y) : ∀ (xp fp : List ℚ),
    xp.Pairwise (· ≤ ·) → fp.Pairwise (fun a b => b ≤ a) →
    ratInterp y xp fp ≤ ratInterp x xp fp := by
  intro xp
  induction xp with
  | nil => intro fp _ _; exact le_refl _
  | cons x0 xp0 ih =>
    intro fp hxp hfp
    cases xp0 with
    | nil =>
      cases fp with
      | nil => exact le_refl _
      | cons f0 fs => exact le_refl f0
    | cons x1 xs =>
      cases fp with
      | nil => exact le_refl _
      | cons f0 fs =>
        cases fs with
        | nil => exact le_refl f0
        | cons f1 fs =>
          have hf10 : f1 ≤ f0 := (List.pairwise_cons.mp hfp).1 f1 (List.mem_cons_self _ _)
          by_cases hx0 : x ≤ x0
          · have hx' : ratInterp x (x0 :: x1 :: xs) (f0 :: f1 :: fs) = f0 := by
              rw [ratInterp, if_pos hx0]
            rw [hx']
            exact ratInterp_le_head y (x1 :: xs) x0 (f1 :: fs) f0 hxp hfp
          · have hy0 : ¬ y ≤ x0 := fun h => hx0 (le_trans hxy h)
            by_cases hy1 : y ≤ x1
            · have hx1 : x ≤ x1 := le_trans hxy hy1
              rw [ratInterp, if_neg hy0, if_pos hy1, ratInterp, if_neg hx0, if_pos hx1]
              exact segment_anti x0 x1 f0 f1 x y (lt_of_lt_of_le (not_le.mp hx0) hx1) hxy hf10
            · by_cases hx1 : x ≤ x1
              · rw [ratInterp, if_neg hy0, if_neg hy1, ratInterp, if_neg hx0, if_pos hx1]
                have h1 : ratInterp y (x1 :: xs) (f1 :: fs) ≤ f1 :=
                  ratInterp_le_head y xs x1 fs f1 hxp.of_cons hfp.of_cons
                have h2 : f1 ≤ f0 + (x - x0) * (f1 - f0) / (x1 - x0) :=
                  segment_ge_right x0 x1 f0 f1 x (lt_of_lt_of_le (not_le.mp hx0) hx1) hx1 hf10
                linarith
              · rw [ratInterp, if_neg hy0, if_neg hy1, ratInterp, if_neg hx0, if_neg hx1]
                exact ih (f1 :: fs) hxp.of_cons hfp.of_cons

/-- Queries at or below the first knot return the first value (clamped
extrapolation on the low side). -/
lemma ratInterp_of_le_head (x : ℚ) : ∀ (xp fp : List ℚ), xp ≠ [] → fp ≠ [] →
    x ≤ xp.getD 0 0 → ratInterp x xp fp = fp.getD 0 0 := by
  intro xp fp hxp hfp hx
  match xp, fp with
  | [x0], f0 :: fs => rfl
  | x0 :: x1 :: xs, [f0] => rfl
  | x0 :: x1 :: xs, f0 :: f1 :: fs =>
    rw [ratInterp, if_pos (by simpa using hx)]
    rfl

/-- The last element of a nonempty list is a member. -/
lemma getLastD_mem : ∀ (l : List ℚ), l ≠ [] → l.getLastD 0 ∈ l
  | [a], _ => by simp [List.getLastD]
  | a :: b :: t, _ => by
    rw [show (a :: b :: t).getLastD 0 = (b :: t).getLastD 0 from rfl]
    exact List.mem_cons_of_mem a (getLastD_mem (b :: t) (by simp))

/-- Queries strictly above the last knot return the last value (clamped
extrapolation on the high side). -/
lemma ratInterp_of_last_lt : ∀ (xp fp : List ℚ), xp.Pairwise (· ≤ ·) →
    fp.length = xp.length → ∀ x : ℚ, xp.getLastD 0 < x →
    ratInterp x xp fp = fp.getLastD 0 := by
  intro xp
  induction xp with
  | nil =>
    intro fp _ hlen x _
    have hfp : fp = [] := List.length_eq_zero.mp (by simpa using hlen)
    subst hfp
    rfl
  | cons x0 xp0 ih =>
    intro fp hxp hlen x hlast
    cases xp0 with
    | nil =>
      match fp, hlen with
      | [f0], _ => rfl
    | cons x1 xs =>
      match fp, hlen with
      | f0 :: f1 :: fs, hlen =>
        have hmem : (x1 :: xs).getLastD 0 ∈ (x1 :: xs) := getLastD_mem _ (by simp)
        have hlast' : (x1 :: xs).getLastD 0 < x := by
          rw [show (x0 :: x1 :: xs).getLastD 0 = (x1 :: xs).getLastD 0 from rfl] at hlast
          exact hlast
        have hx0 : x0 ≤ (x1 :: xs).getLastD 0 := List.rel_of_pairwise_cons hxp hmem
        have hx1 : x1 ≤ (x1 :: xs).getLastD 0 := by
          rcases List.mem_cons.mp hmem with h | h
          · exact le_of_eq h.symm
          · exact List.rel_of_pairwise_cons hxp.of_cons h
        rw [ratInterp, if_neg (by linarith), if_neg (by linarith)]
        rw [show (f0 :: f1 :: fs).getLastD 0 = (f1 :: fs).getLastD 0 from rfl]
        exact ih (f1 :: fs) hxp.of_cons (by simpa using hlen) x hlast'

/-- An in-bounds `getD` is a member of the list. -/
lemma getD_mem (l : List ℚ) (j : ℕ) (h : j < l.length) : l.getD j 0 ∈ l := by
  rw [List.getD_eq_getElem _ _ h]
  exact List.getElem_mem h

/-- In a `Pairwise (· ≤ ·)` list, values are monotone in the index. -/
lemma pairwise_le_getD (l : List ℚ) (hl : l.Pairwise (· ≤ ·)) (i j : ℕ) (hij : i ≤ j)
    (hj : j < l.length) : l.getD i 0 ≤ l.getD j 0 := by
  rcases eq_or_lt_of_le hij with rfl | hlt
  · exact le_refl _
  · have hi : i < l.length := lt_trans hlt hj
    rw [List.getD_eq_getElem _ _ hi, List.getD_eq_getElem _ _ hj]
    exact List.pairwise_iff_getElem.mp hl i j hi hj hlt

/-- In a `Pairwise (fun a b => b ≤ a)` list, values are antitone in the
index. -/
lemma pairwise_ge_getD (l : List ℚ) (hl : l.Pairwise (fun a b => b ≤ a)) (i j : ℕ) (hij : i ≤ j)
    (hj : j < l.length) : l.getD j 0 ≤ l.getD i 0 := by
  rcases eq_or_lt_of_le hij with rfl | hlt
  · exact le_refl _
  · have hi : i < l.length := lt_trans hlt hj
    rw [List.getD_eq_getElem _ _ hi, List.getD_eq_getElem _ _ hj]
    exact List.pairwise_iff_getElem.mp hl i j hi hj hlt

/-- With strictly ascending knots, interpolation is exact at every knot. -/
lemma ratInterp_knot : ∀ (xp fp : List ℚ), xp.Pairwise (· < ·) → fp.length = xp.length →
    ∀ j : ℕ, j < xp.length → ratInterp (xp.getD j 0) xp fp = fp.getD j 0 := by
  intro xp
  induction xp with
  | nil => intro fp _ _ j hj; exact absurd hj (by simp)
  | cons x0 xp0 ih =>
    intro fp hxp hlen j hj
    cases xp0 with
    | nil =>
      match fp, hlen with
      | [f0], _ =>
        have hj0 : j = 0 := by simpa using hj
        subst hj0
        rfl
    | cons x1 xs =>
      match fp, hlen with
      | f0 :: f1 :: fs, hlen =>
        have h01 : x0 < x1 := (List.pairwise_cons.mp hxp).1 x1 (List.mem_cons_self _ _)
        cases j with
        | zero =>
          simp only [List.getD_cons_zero]
          rw [ratInterp, if_pos (le_refl x0)]
        | succ j =>
          simp only [List.getD_cons_succ]
          cases j with
          | zero =>
            simp only [List.getD_cons_zero]
            rw [ratInterp, if_neg (not_le.mpr h01), if_pos (le_refl x1)]
            have hne : x1 - x0 ≠ 0 := ne_of_gt (by linarith)
            field_simp
          | succ j =>
            simp only [List.getD_cons_succ]
            have hjlen : j < xs.length := by
              have := hj
              simp only [List.length_cons] at this
              omega
            have hq : xs.getD j 0 ∈ xs := getD_mem xs j hjlen
            have hx1q : x1 < xs.getD j 0 := List.rel_of_pairwise_cons hxp.of_cons hq
            have hx0q : x0 < xs.getD j 0 := lt_trans h01 hx1q
            rw [ratInterp, if_neg (not_le.mpr hx0q), if_neg (not_le.mpr hx1q)]
            have hrec := ih (f1 :: fs) hxp.of_cons (by simpa using hlen) (j + 1)
              (by simpa using hjlen)
            simpa using hrec

/-! ### Structural lemmas for the mapper components -/

/-- Smoothing preserves the table length. -/
lemma smoothPoints_length (pts : List ℚ) : (smoothPoints pts).length = pts.length := by
  simp [smoothPoints]

/-- Indices whose 7-sample window is incomplete keep the raw value. -/
lemma smoothPoints_getD (pts : List ℚ) (i : ℕ) (hi : i < pts.length)
    (h : ¬ (3 ≤ i ∧ i + 3 < pts.length)) : (smoothPoints pts).getD i 0 = pts.getD i 0 := by
  unfold smoothPoints
  rw [List.getD_eq_getElem _ _ (by simpa using hi)]
  simp only [List.getElem_map, List.getElem_range]
  rw [if_neg h]

/-- `binsOf` has one entry fewer than its input. -/
lemma binsOf_length (s : List ℚ) : (binsOf s).length = s.length - 1 := by
  simp [binsOf]

/-- Each bin is the midpoint of the two adjacent smoothed points. -/
lemma binsOf_getD (s : List ℚ) (i : ℕ) (hi : i + 1 < s.length) :
    (binsOf s).getD i 0 = (s.getD i 0 + s.getD (i + 1) 0) / 2 := by
  have hb : i < (binsOf s).length := by rw [binsOf_length]; omega
  rw [List.getD_eq_getElem _ _ hb]
  unfold binsOf
  simp only [List.getElem_map, List.getElem_zipWith, List.getElem_drop, List.getElem_dropLast]
  rw [List.getD_eq_getElem _ _ (by omega : i < s.length), List.getD_eq_getElem _ _ hi]
  have : 1 + i = i + 1 := by omega
  simp only [this]
  ring

/-- `ranksOf` has the requested length. -/
lemma ranksOf_length (n : ℕ) : (ranksOf n).length = n := by
  unfold ranksOf
  rw [List.length_map, List.length_range]

/-- The `j`-th rank value is `j + 1`. -/
lemma ranksOf_getD (n j : ℕ) (hj : j < n) : (ranksOf n).getD j 0 = (j : ℚ) + 1 := by
  unfold ranksOf
  rw [List.getD_eq_getElem _ _ (by rw [List.length_map, List.length_range]; exact hj)]
  simp only [List.getElem_map, List.getElem_range]

/-- The rank axis is strictly increasing. -/
lemma ranksOf_pairwise (n : ℕ) : (ranksOf n).Pairwise (· < ·) := by
  unfold ranksOf
  rw [List.pairwise_iff_getElem]
  intro i j hi hj hij
  simp only [List.getElem_map, List.getElem_range]
  have hq : (i : ℚ) < (j : ℚ) := by
    exact_mod_cast hij
  linarith

/-- `getD` through `reverse`. -/
lemma getD_reverse (l : List ℚ) (i : ℕ) (h : i < l.length) :
    l.reverse.getD i 0 = l.getD (l.length - 1 - i) 0 := by
  rw [List.getD_eq_getElem _ _ (by simpa using h), List.getElem_reverse,
    List.getD_eq_getElem _ _ (by omega)]

/-- Inversion of a successful construction: the mapper fields are exactly the
smoothed table, its bins, the rank axis, and the (necessarily valid)
distribution tag. -/
lemma mkMapper_ok {tbl : List ℚ} {d : String} {m : Mapper} (h : mkMapper tbl d = .ok m) :
    m.smoothed_points = smoothPoints tbl ∧ m.points_bins = binsOf (smoothPoints tbl) ∧
    m.ranks = ranksOf (smoothPoints tbl).length ∧ m.points_dist_type = "gaussian" := by
  unfold mkMapper at h
  by_cases hd : d ∈ validPointsDistTypes
  · rw [if_pos hd] at h
    injection h with h
    subst h
    have hdg : d = "gaussian" := by simpa [validPointsDistTypes] using hd
    exact ⟨rfl, rfl, rfl, hdg⟩
  · rw [if_neg hd] at h
    cases h

/-! ### Probability-vector lemmas -/

/-- `negDiff` has one entry fewer than its input. -/
lemma negDiff_length : ∀ l : List ℚ, (negDiff l).length = l.length - 1
  | [] => rfl
  | [_] => rfl
  | a :: b :: t => by
    rw [show negDiff (a :: b :: t) = (a - b) :: negDiff (b :: t) from rfl]
    simp [negDiff_length (b :: t)]

/-- The sum of `negDiff` telescopes to first minus last. -/
lemma negDiff_sum : ∀ (l : List ℚ) (a : ℚ), (negDiff (a :: l)).sum = a - (a :: l).getLastD 0
  | [], a => by simp [negDiff]
  | b :: t, a => by
    rw [show negDiff (a :: b :: t) = (a - b) :: negDiff (b :: t) from rfl, List.sum_cons,
      negDiff_sum t b, show (a :: b :: t).getLastD 0 = (b :: t).getLastD 0 from rfl]
    ring

/-- The assembled per-rank probabilities always sum to exactly 1. -/
lemma rankProbs_sum : ∀ l : List ℚ, l ≠ [] → (rankProbs l).sum = 1
  | c0 :: rest, _ => by
    rw [rankProbs, List.sum_cons, List.sum_append, negDiff_sum rest c0]
    simp

/-- The probability vector has one entry more than the CDF vector. -/
lemma rankProbs_length : ∀ l : List ℚ, l ≠ [] → (rankProbs l).length = l.length + 1
  | c0 :: rest, _ => by
    rw [rankProbs]
    simp [negDiff_length]

/-- All entries of `negDiff` of a non-increasing list are nonnegative. -/
lemma negDiff_nonneg : ∀ l : List ℚ, l.Pairwise (fun a b => b ≤ a) → ∀ p ∈ negDiff l, 0 ≤ p
  | [], _, p, hp => absurd hp (by simp [negDiff])
  | [_], _, p, hp => absurd hp (by simp [negDiff])
  | a :: b :: t, h, p, hp => by
    rw [show negDiff (a :: b :: t) = (a - b) :: negDiff (b :: t) from rfl] at hp
    rcases List.mem_cons.mp hp with rfl | hp2
    · have hba : b ≤ a := (List.pairwise_cons.mp h).1 b (List.mem_cons_self _ _)
      linarith
    · exact negDiff_nonneg (b :: t) h.of_cons p hp2

/-- Non-increasing CDF values inside `[0, 1]` yield nonnegative per-rank
probabilities. -/
lemma rankProbs_nonneg : ∀ l : List ℚ, l.Pairwise (fun a b => b ≤ a) →
    (∀ c ∈ l, 0 ≤ c ∧ c ≤ 1) → ∀ p ∈ rankProbs l, 0 ≤ p
  | [], _, _, p, hp => absurd hp (by simp [rankProbs])
  | c0 :: rest, hl, hmem, p, hp => by
    rw [rankProbs] at hp
    rcases List.mem_cons.mp hp with rfl | hp2
    · have := (hmem c0 (List.mem_cons_self _ _)).2
      linarith
    · rcases List.mem_append.mp hp2 with hp3 | hp4
      · exact negDiff_nonneg _ hl p hp3
      · have hpl : p = (c0 :: rest).getLastD 0 := by simpa using hp4
        subst hpl
        exact (hmem _ (getLastD_mem _ (by simp))).1

/-! ### Bin-CDF lemmas -/

/-- The gaussian-branch CDF vector has as many entries as there are bins. -/
lemma binCdfs_length (ops : NumOps) (m : Mapper) (pv pm : ℚ) :
    (binCdfs ops m pv pm).length = m.points_bins.length := by
  simp [binCdfs]

/-- With non-increasing bins, a monotone CDF oracle, and a positive standard
deviation, the CDF vector is non-increasing. -/
lemma binCdfs_pairwise (ops : NumOps) (m : Mapper) (pv pm : ℚ)
    (hbins : m.points_bins.Pairwise (fun a b => b ≤ a))
    (hcdf : ∀ a b : ℚ, a ≤ b → ops.normCdf a ≤ ops.normCdf b)
    (hs : 0 < ops.sqrt pv) :
    (binCdfs ops m pv pm).Pairwise (fun a b => b ≤ a) := by
  unfold binCdfs
  refine hbins.map _ ?_
  intro a b hba
  exact hcdf _ _ ((div_le_div_iff_of_pos_right hs).mpr (by linarith))

/-- A CDF oracle ranging in `[0, 1]` gives a CDF vector inside `[0, 1]`. -/
lemma binCdfs_bounds (ops : NumOps) (m : Mapper) (pv pm : ℚ)
    (hlo : ∀ z : ℚ, 0 ≤ ops.normCdf z) (hhi : ∀ z : ℚ, ops.normCdf z ≤ 1) :
    ∀ c ∈ binCdfs ops m pv pm, 0 ≤ c ∧ c ≤ 1 := by
  intro c hc
  unfold binCdfs at hc
  obtain ⟨b, _, rfl⟩ := List.mem_map.mp hc
  exact ⟨hlo _, hhi _⟩

/-- Midpoints of a non-increasing table are non-increasing. -/
lemma binsOf_pairwise (s : List ℚ) (h : s.Pairwise (fun a b => b ≤ a)) :
    (binsOf s).Pairwise (fun a b => b ≤ a) := by
  rw [List.pairwise_iff_getElem]
  intro i j hi hj hij
  have hlen := binsOf_length s
  have hi2 : i + 1 < s.length := by rw [hlen] at hi; omega
  have hj2 : j + 1 < s.length := by rw [hlen] at hj; omega
  rw [← List.getD_eq_getElem _ 0 hi, ← List.getD_eq_getElem _ 0 hj,
    binsOf_getD s i hi2, binsOf_getD s j hj2]
  have h1 : s.getD j 0 ≤ s.getD i 0 := pairwise_ge_getD s h i j (le_of_lt hij) (by omega)
  have h2 : s.getD (j + 1) 0 ≤ s.getD (i + 1) 0 := pairwise_ge_getD s h (i + 1) (j + 1)
    (by omega) hj2
  linarith

/-! ### Variance-transform and solver lemmas -/

/-- On a well-formed gaussian mapper (table length at least 2, bins one
shorter), `points_to_rank_variance` always succeeds, for every oracle bundle
and every pair of inputs -- including nonpositive variances. -/
lemma points_to_rank_variance_ok (ops : NumOps) (m : Mapper)
    (hd : m.points_dist_type = "gaussian") (h2 : 2 ≤ m.smoothed_points.length)
    (hb : m.points_bins.length = m.smoothed_points.length - 1) (pv pm : ℚ) :
    points_to_rank_variance ops m pv pm = .ok (points_to_rank_variance_val ops m pv pm) := by
  unfold points_to_rank_variance
  rw [if_neg (by omega)]
  have hne : binCdfsBranch ops m pv pm ≠ [] := by
    unfold binCdfsBranch
    rw [if_pos hd]
    intro hempty
    have hlen := congrArg List.length hempty
    rw [binCdfs_length, List.length_nil] at hlen
    omega
  cases hcc : binCdfsBranch ops m pv pm with
  | nil => exact absurd hcc hne
  | cons c cs => rfl

/-- On a well-formed gaussian mapper, `rank_to_points_variance` reduces to
the minimizer call: error exactly on non-convergence, `result.x[0]`
otherwise. -/
lemma rank_to_points_variance_eq (ops : NumOps) (m : Mapper)
    (hd : m.points_dist_type = "gaussian") (h2 : 2 ≤ m.smoothed_points.length)
    (hb : m.points_bins.length = m.smoothed_points.length - 1) (rv rm : ℚ) :
    rank_to_points_variance ops m rv rm =
      if (ops.minimize (rankVarObjective ops m rv rm) (initialVarGuess ops m rv rm)).success
      then .ok ((ops.minimize (rankVarObjective ops m rv rm) (initialVarGuess ops m rv rm)).x.getD 0 0)
      else .error (.runtimeError "Minimization of rank variance error could not converge") := by
  unfold rank_to_points_variance
  rw [points_to_rank_variance_ok ops m hd h2 hb]

/-- On a well-formed gaussian mapper, `rank_to_points_variance` either
succeeds or reports the non-convergence `RuntimeError`. -/
lemma rank_to_points_variance_or (ops : NumOps) (m : Mapper)
    (hd : m.points_dist_type = "gaussian") (h2 : 2 ≤ m.smoothed_points.length)
    (hb : m.points_bins.length = m.smoothed_points.length - 1) (rv rm : ℚ) :
    (∃ v, rank_to_points_variance ops m rv rm = .ok v) ∨
      rank_to_points_variance ops m rv rm =
        .error (.runtimeError "Minimization of rank variance error could not converge") := by
  rw [rank_to_points_variance_eq ops m hd h2 hb]
  by_cases hs : (ops.minimize (rankVarObjective ops m rv rm) (initialVarGuess ops m rv rm)).success
  · left
    exact ⟨_, by rw [if_pos hs]⟩
  · right
    rw [if_neg hs]

/-- Inversion of the per-entry solving loop: a successful run has one output
per input, and each output solves its own entry. -/
lemma solveVariances_ok (ops : NumOps) (m : Mapper) : ∀ (l : List (ℚ × ℚ)) (vs : List ℚ),
    solveVariances ops m l = .ok vs →
    vs.length = l.length ∧ ∀ i, i < l.length →
      rank_to_points_variance ops m (l.getD i (0, 0)).2 (l.getD i (0, 0)).1 = .ok (vs.getD i 0) := by
  intro l
  induction l with
  | nil =>
    intro vs h
    have hvs : vs = [] := by
      simpa [solveVariances] using h.symm
    subst hvs
    exact ⟨rfl, fun i hi => absurd hi (by simp)⟩
  | cons mv rest ih =>
    intro vs h
    unfold solveVariances at h
    cases h1 : rank_to_points_variance ops m mv.2 mv.1 with
    | error e => rw [h1] at h; simp at h
    | ok v =>
      cases h2 : solveVariances ops m rest with
      | error e => rw [h1, h2] at h; simp at h
      | ok vs0 =>
        rw [h1, h2] at h
        simp only [Except.ok.injEq] at h
        subst h
        obtain ⟨hlen, hidx⟩ := ih vs0 h2
        refine ⟨by simp [hlen], ?_⟩
        intro i hi
        cases i with
        | zero => simpa using h1
        | succ i =>
          have := hidx i (by simpa using hi)
          simpa using this

/-- Under the conditions that make the per-entry solver total-or-runtime,
the solving loop never produces a `ValueError` or `IndexError`. -/
lemma solveVariances_or (ops : NumOps) (m : Mapper)
    (hd : m.points_dist_type = "gaussian") (h2 : 2 ≤ m.smoothed_points.length)
    (hb : m.points_bins.length = m.smoothed_points.length - 1) : ∀ l : List (ℚ × ℚ),
    (∃ vs, solveVariances ops m l = .ok vs) ∨
      solveVariances ops m l =
        .error (.runtimeError "Minimization of rank variance error could not converge") := by
  intro l
  induction l with
  | nil => exact Or.inl ⟨[], rfl⟩
  | cons mv rest ih =>
    rcases rank_to_points_variance_or ops m hd h2 hb mv.2 mv.1 with ⟨v, hv⟩ | hv
    · rcases ih with ⟨vs, hvs⟩ | hvs
      · left
        exact ⟨v :: vs, by unfold solveVariances; rw [hv, hvs]⟩
      · right
        unfold solveVariances
        rw [hv, hvs]
    · right
      unfold solveVariances
      rw [hv]

/-! ### Mapper-level lemmas and stand-in properties -/

/-- `reverse` turns the last-or-default into the head-or-default. -/
lemma getLastD_reverse (l : List ℚ) : l.reverse.getLastD 0 = l.getD 0 0 := by
  rw [List.getLastD_eq_getLast?, List.getLast?_reverse]
  cases l <;> simp

/-- On a mapper with a non-increasing smoothed table and the canonical rank
axis, `points_to_rank_mean` is antitone. -/
lemma points_to_rank_mean_anti (m : Mapper)
    (hr : m.ranks = ranksOf m.smoothed_points.length)
    (hmono : m.smoothed_points.Pairwise (fun a b => b ≤ a))
    {p1 p2 : ℚ} (h : p2 ≤ p1) :
    points_to_rank_mean m p1 ≤ points_to_rank_mean m p2 := by
  unfold points_to_rank_mean
  apply ratInterp_anti h
  · rw [List.pairwise_reverse]
    exact hmono
  · rw [List.pairwise_reverse, hr]
    exact (ranksOf_pairwise _).imp le_of_lt

/-- The clamped-linear CDF stand-in is monotone. -/
lemma clampCdf_mono (a b : ℚ) (h : a ≤ b) : clampCdf a ≤ clampCdf b := by
  unfold clampCdf
  exact max_le_max (le_refl 0) (min_le_min (le_refl 1) (by linarith))

/-- The CDF stand-in is nonnegative. -/
lemma clampCdf_nonneg (z : ℚ) : 0 ≤ clampCdf z := le_max_left 0 _

/-- The CDF stand-in is at most 1. -/
lemma clampCdf_le_one (z : ℚ) : clampCdf z ≤ 1 :=
  max_le (by norm_num) (min_le_left 1 _)

/-- The sqrt stand-in is nonnegative. -/
lemma ratSqrt_nonneg (q : ℚ) : 0 ≤ ratSqrt q := le_max_right q 0

/-- The sqrt stand-in is positive on positive inputs. -/
lemma ratSqrt_pos {q : ℚ} (hq : 0 < q) : 0 < ratSqrt q := lt_max_iff.mpr (Or.inl hq)

/-- Constructing a mapper from the concrete table yields `M4`. -/
lemma M4_mk : mkMapper tbl4 "gaussian" = .ok M4 := by
  norm_num [mkMapper, tbl4, M4, smoothPoints, binsOf, ranksOf, validPointsDistTypes, range_four]

/-- `getD` of a `zip`, in bounds. -/
lemma getD_zip {α β : Type} (l1 : List α) (l2 : List β) (i : ℕ) (a : α) (b : β)
    (h1 : i < l1.length) (h2 : i < l2.length) :
    (l1.zip l2).getD i (a, b) = (l1.getD i a, l2.getD i b) := by
  rw [List.getD_eq_getElem _ _ (by rw [List.length_zip]; omega), List.getElem_zip,
    List.getD_eq_getElem _ _ h1, List.getD_eq_getElem _ _ h2]

/-- `getD` of a `map`, in bounds (any defaults). -/
lemma getD_map {α β : Type} (f : α → β) (l : List α) (i : ℕ) (a : α) (b : β)
    (h : i < l.length) : (l.map f).getD i b = f (l.getD i a) := by
  rw [List.getD_eq_getElem _ _ (by simpa using h), List.getElem_map,
    List.getD_eq_getElem _ _ h]

/-! ### Claim theorems -/

/-- C1 counterexample: the claim says `points_to_rank_variance` rejects
`points_variance ≤ 0` with an invalid-input error before any CDF work; in
fact at `points_variance = 0` (and mean 7, on the `tbl4` mapper) the code
raises nothing and returns a numeric value. -/
theorem claim_C1_counterexample :
    points_to_rank_variance testOps M4 0 7 = .ok (9 / 4) := by
  norm_num [points_to_rank_variance, points_to_rank_variance_val, binCdfsBranch, binCdfs,
    testOps, M4, clampCdf, ratSqrt, rankProbs, negDiff, points_to_rank_mean, ratInterp,
    max_def, min_def]

/-- C1 (amended): `points_to_rank_variance` performs no validation of
`points_variance`; on every mapper built from a table of length at least 2 it
returns a numeric value even when `points_variance ≤ 0` (in floating point
the NaN/inf z-scores propagate silently; no error is raised). -/
theorem claim_C1_no_validation (ops : NumOps) (tbl : List ℚ) (m : Mapper) (pv pm : ℚ)
    (hmk : mkMapper tbl "gaussian" = .ok m) (h2 : 2 ≤ m.smoothed_points.length)
    (hpv : pv ≤ 0) :
    ∃ q, points_to_rank_variance ops m pv pm = .ok q := by
  obtain ⟨hs, hbins, hr, hd⟩ := mkMapper_ok hmk
  exact ⟨_, points_to_rank_variance_ok ops m hd h2 (by rw [hbins, binsOf_length, hs]) pv pm⟩

/-- Witness for C1 (amended) at a concrete zero variance. -/
theorem claim_C1_witness : ∃ q, points_to_rank_variance testOps M4 0 7 = .ok q :=
  claim_C1_no_validation testOps tbl4 M4 0 7 M4_mk (by norm_num [M4]) (le_refl 0)

/-- C4: `rank_to_points_variance` raises the non-convergence `RuntimeError`
if and only if the minimizer reports failure, and on success returns
`result.x[0]`; it never silently returns a best-effort value after a failed
search. -/
theorem claim_C4_solver_error_iff (ops : NumOps) (tbl : List ℚ) (m : Mapper) (rv rm : ℚ)
    (hmk : mkMapper tbl "gaussian" = .ok m) (h2 : 2 ≤ m.smoothed_points.length) :
    rank_to_points_variance ops m rv rm =
      if (ops.minimize (rankVarObjective ops m rv rm) (initialVarGuess ops m rv rm)).success
      then .ok ((ops.minimize (rankVarObjective ops m rv rm)
        (initialVarGuess ops m rv rm)).x.getD 0 0)
      else .error (.runtimeError "Minimization of rank variance error could not converge") := by
  obtain ⟨hs, hbins, hr, hd⟩ := mkMapper_ok hmk
  exact rank_to_points_variance_eq ops m hd h2 (by rw [hbins, binsOf_length, hs]) rv rm

/-- Witness for C4 at concrete inputs. -/
theorem claim_C4_witness :
    rank_to_points_variance testOps M4 1 2 =
      if (testOps.minimize (rankVarObjective testOps M4 1 2)
            (initialVarGuess testOps M4 1 2)).success
      then .ok ((testOps.minimize (rankVarObjective testOps M4 1 2)
        (initialVarGuess testOps M4 1 2)).x.getD 0 0)
      else .error (.runtimeError "Minimization of rank variance error could not converge") :=
  claim_C4_solver_error_iff testOps tbl4 M4 1 2 M4_mk (by norm_num [M4])

/-- C8: on every constructed mapper, the bins have exactly `n - 1` entries,
each the midpoint of its two adjacent smoothed points, and the ranks have
exactly `n` entries with values `1..n`; construction has no failure mode for
these fields. -/
theorem claim_C8_axis_builder (tbl : List ℚ) (m : Mapper)
    (hmk : mkMapper tbl "gaussian" = .ok m) :
    m.points_bins.length = m.smoothed_points.length - 1 ∧
    (∀ i : ℕ, i + 1 < m.smoothed_points.length →
      m.points_bins.getD i 0 =
        (m.smoothed_points.getD i 0 + m.smoothed_points.getD (i + 1) 0) / 2) ∧
    m.ranks.length = m.smoothed_points.length ∧
    (∀ j : ℕ, j < m.smoothed_points.length → m.ranks.getD j 0 = (j : ℚ) + 1) := by
  obtain ⟨hs, hbins, hr, hd⟩ := mkMapper_ok hmk
  refine ⟨by rw [hbins, binsOf_length, hs], ?_, by rw [hr, ranksOf_length, hs], ?_⟩
  · intro i hi
    rw [hs] at hi
    rw [hbins, binsOf_getD _ i hi, hs]
  · intro j hj
    rw [hs] at hj
    rw [hr, ranksOf_getD _ j hj]

/-- Witness for C8 on the concrete table. -/
theorem claim_C8_witness :
    M4.points_bins.length = M4.smoothed_points.length - 1 ∧
    M4.points_bins.getD 0 0 = (M4.smoothed_points.getD 0 0 + M4.smoothed_points.getD 1 0) / 2 ∧
    M4.ranks.length = M4.smoothed_points.length ∧
    M4.ranks.getD 3 0 = (3 : ℚ) + 1 := by
  obtain ⟨h1, h2, h3, h4⟩ := claim_C8_axis_builder tbl4 M4 M4_mk
  refine ⟨h1, h2 0 (by norm_num [M4]), h3, ?_⟩
  have := h4 3 (by norm_num [M4])
  simpa using this

/-- C9: for every raw table, the smoothed table has the same length, and
every index whose 7-sample centered window is incomplete (the undefined
average) holds the raw input value; the smoother itself has no error
condition (it is a total function). -/
theorem claim_C9_smoother (pts : List ℚ) (h2 : 2 ≤ pts.length) :
    (smoothPoints pts).length = pts.length ∧
    ∀ i : ℕ, i < pts.length → ¬ (3 ≤ i ∧ i + 3 < pts.length) →
      (smoothPoints pts).getD i 0 = pts.getD i 0 :=
  ⟨smoothPoints_length pts, fun i hi h => smoothPoints_getD pts i hi h⟩

/-- Witness for C9 on the concrete table. -/
theorem claim_C9_witness :
    (smoothPoints tbl4).length = tbl4.length ∧
    (smoothPoints tbl4).getD 0 0 = tbl4.getD 0 0 := by
  refine ⟨(claim_C9_smoother tbl4 (by norm_num [tbl4])).1, ?_⟩
  exact (claim_C9_smoother tbl4 (by norm_num [tbl4])).2 0 (by norm_num [tbl4]) (by norm_num)

/-- C10 counterexample: the claim says every successfully constructed mapper
has a table of length at least 2, but construction performs no length check:
a single-entry table constructs successfully with `n = 1` (and empty bins). -/
theorem claim_C10_counterexample :
    mkMapper [(5 : ℚ)] "gaussian" = .ok (Mapper.mk [(5 : ℚ)] [] [(1 : ℚ)] "gaussian") ∧
    (Mapper.mk [(5 : ℚ)] [] [(1 : ℚ)] "gaussian").smoothed_points.length = 1 := by
  constructor
  · norm_num [mkMapper, smoothPoints, binsOf, ranksOf, validPointsDistTypes, range_one]
  · norm_num

/-- C10 (amended): construction does not enforce `n ≥ 2`; but on every
mapper built from a table of length at least 2, the distribution kind is
gaussian, the gaussian branch fully replaces the pre-allocated zero array
(which therefore never contributes to the result), the CDF vector has `n - 1`
entries so its first and last accesses are in bounds, and
`points_to_rank_variance` succeeds. -/
theorem claim_C10_invariants (ops : NumOps) (tbl : List ℚ) (m : Mapper) (pv pm : ℚ)
    (hmk : mkMapper tbl "gaussian" = .ok m) (h2 : 2 ≤ m.smoothed_points.length) :
    m.points_dist_type = "gaussian" ∧
    binCdfsBranch ops m pv pm = binCdfs ops m pv pm ∧
    (binCdfs ops m pv pm).length = m.smoothed_points.length - 1 ∧
    0 < (binCdfs ops m pv pm).length ∧
    points_to_rank_variance ops m pv pm = .ok (points_to_rank_variance_val ops m pv pm) := by
  obtain ⟨hs, hbins, hr, hd⟩ := mkMapper_ok hmk
  have hblen : m.points_bins.length = m.smoothed_points.length - 1 := by
    rw [hbins, binsOf_length, hs]
  refine ⟨hd, ?_, ?_, ?_, points_to_rank_variance_ok ops m hd h2 hblen pv pm⟩
  · unfold binCdfsBranch
    rw [if_pos hd]
  · rw [binCdfs_length, hblen]
  · rw [binCdfs_length, hblen]
    omega

/-- Witness for C10 (amended) at concrete inputs. -/
theorem claim_C10_witness :
    M4.points_dist_type = "gaussian" ∧
    binCdfsBranch testOps M4 1 7 = binCdfs testOps M4 1 7 ∧
    (binCdfs testOps M4 1 7).length = M4.smoothed_points.length - 1 ∧
    0 < (binCdfs testOps M4 1 7).length ∧
    points_to_rank_variance testOps M4 1 7 =
      .ok (points_to_rank_variance_val testOps M4 1 7) :=
  claim_C10_invariants testOps tbl4 M4 1 7 M4_mk (by norm_num [M4])

/-- C6: on a mapper whose smoothed table is strictly decreasing, the round
trip `points_to_rank_mean (rank_to_points_mean r)` is exact for every
table-aligned rank `r` in `1..n` (and hence the round-trip error between
knots is within the piecewise-linear resolution). -/
theorem claim_C6_round_trip (tbl : List ℚ) (m : Mapper)
    (hmk : mkMapper tbl "gaussian" = .ok m)
    (hstrict : m.smoothed_points.Pairwise (fun a b => b < a))
    (k : ℕ) (hk1 : 1 ≤ k) (hkn : k ≤ m.smoothed_points.length) :
    points_to_rank_mean m (rank_to_points_mean m (k : ℚ)) = (k : ℚ) := by
  obtain ⟨hs, hbins, hr, hd⟩ := mkMapper_ok hmk
  have hslen : (smoothPoints tbl).length = m.smoothed_points.length := by rw [hs]
  have hrn : m.ranks = ranksOf m.smoothed_points.length := by rw [hr, hslen]
  have hk1n : k - 1 < m.smoothed_points.length := by omega
  have hkval : (k : ℚ) = (ranksOf m.smoothed_points.length).getD (k - 1) 0 := by
    rw [ranksOf_getD _ _ hk1n]
    push_cast [Nat.cast_sub hk1]
    ring
  have hstep1 : rank_to_points_mean m (k : ℚ) = m.smoothed_points.getD (k - 1) 0 := by
    unfold rank_to_points_mean
    rw [hrn, hkval]
    exact ratInterp_knot (ranksOf m.smoothed_points.length) m.smoothed_points
      (ranksOf_pairwise _) (by rw [ranksOf_length]) (k - 1)
      (by rw [ranksOf_length]; exact hk1n)
  have hrev : m.smoothed_points.reverse.Pairwise (· < ·) := by
    rw [List.pairwise_reverse]
    exact hstrict
  have hlenrev : m.ranks.reverse.length = m.smoothed_points.reverse.length := by
    simp [hrn, ranksOf_length]
  have hidx : m.smoothed_points.length - k < m.smoothed_points.reverse.length := by
    rw [List.length_reverse]
    omega
  have hq : m.smoothed_points.getD (k - 1) 0 =
      m.smoothed_points.reverse.getD (m.smoothed_points.length - k) 0 := by
    rw [getD_reverse _ _ (by omega)]
    congr 1
    omega
  unfold points_to_rank_mean
  rw [hstep1, hq,
    ratInterp_knot m.smoothed_points.reverse m.ranks.reverse hrev hlenrev
      (m.smoothed_points.length - k) hidx,
    hrn, getD_reverse _ _ (by rw [ranksOf_length]; omega), ranksOf_length]
  have hix : m.smoothed_points.length - 1 - (m.smoothed_points.length - k) = k - 1 := by omega
  rw [hix, ranksOf_getD _ _ hk1n]
  push_cast [Nat.cast_sub hk1]
  ring

/-- Witness for C6 at the table-aligned rank 2. -/
theorem claim_C6_witness :
    points_to_rank_mean M4 (rank_to_points_mean M4 ((2 : ℕ) : ℚ)) = ((2 : ℕ) : ℚ) :=
  claim_C6_round_trip tbl4 M4 M4_mk (by norm_num [M4, List.pairwise_cons]) 2
    (by norm_num) (by norm_num [M4])

/-- C7: on a mapper whose smoothed table is monotone non-increasing,
`points_to_rank_mean` is antitone (higher points never map to a numerically
larger rank), and queries strictly outside the table range are clamped to
the boundary ranks 1 and `n`. -/
theorem claim_C7_monotone (tbl : List ℚ) (m : Mapper)
    (hmk : mkMapper tbl "gaussian" = .ok m) (h2 : 2 ≤ m.smoothed_points.length)
    (hmono : m.smoothed_points.Pairwise (fun a b => b ≤ a)) :
    (∀ p1 p2 : ℚ, p2 < p1 → points_to_rank_mean m p1 ≤ points_to_rank_mean m p2) ∧
    (∀ p : ℚ, m.smoothed_points.getD 0 0 < p → points_to_rank_mean m p = 1) ∧
    (∀ p : ℚ, p < m.smoothed_points.getD (m.smoothed_points.length - 1) 0 →
      points_to_rank_mean m p = (m.smoothed_points.length : ℚ)) := by
  obtain ⟨hs, hbins, hr, hd⟩ := mkMapper_ok hmk
  have hslen : (smoothPoints tbl).length = m.smoothed_points.length := by rw [hs]
  have hrn : m.ranks = ranksOf m.smoothed_points.length := by rw [hr, hslen]
  have hne : m.smoothed_points ≠ [] := by
    intro hc
    rw [hc] at h2
    simp at h2
  have hrevne : m.smoothed_points.reverse ≠ [] := by simpa using hne
  have hrne : m.ranks.reverse ≠ [] := by
    rw [hrn]
    intro hc
    have hlc := congrArg List.length hc
    rw [List.length_reverse, ranksOf_length, List.length_nil] at hlc
    omega
  refine ⟨?_, ?_, ?_⟩
  · intro p1 p2 h
    exact points_to_rank_mean_anti m hrn hmono (le_of_lt h)
  · intro p hp
    unfold points_to_rank_mean
    rw [ratInterp_of_last_lt m.smoothed_points.reverse m.ranks.reverse
      (by rw [List.pairwise_reverse]; exact hmono)
      (by simp [hrn, ranksOf_length]) p
      (by rw [getLastD_reverse]; exact hp)]
    rw [getLastD_reverse, hrn, ranksOf_getD _ 0 (by omega)]
    norm_num
  · intro p hp
    have h0 : p ≤ m.smoothed_points.reverse.getD 0 0 := by
      rw [getD_reverse _ 0 (by omega)]
      simpa using le_of_lt hp
    rw [points_to_rank_mean, ratInterp_of_le_head p _ _ hrevne hrne h0, hrn,
      getD_reverse _ 0 (by rw [ranksOf_length]; omega), ranksOf_length]
    have hix : m.smoothed_points.length - 1 - 0 = m.smoothed_points.length - 1 := by omega
    rw [hix, ranksOf_getD _ _ (by omega)]
    push_cast [Nat.cast_sub (by omega : 1 ≤ m.smoothed_points.length)]
    ring

/-- Witness for C7 at concrete points, including clamped queries. -/
theorem claim_C7_witness :
    points_to_rank_mean M4 9 ≤ points_to_rank_mean M4 5 ∧
    points_to_rank_mean M4 11 = 1 ∧
    points_to_rank_mean M4 3 = (M4.smoothed_points.length : ℚ) := by
  obtain ⟨ha, hb, hc⟩ := claim_C7_monotone tbl4 M4 M4_mk (by norm_num [M4])
    (by norm_num [M4, List.pairwise_cons])
  exact ⟨ha 9 5 (by norm_num), hb 11 (by norm_num [M4]), hc 3 (by norm_num [M4])⟩

/-- C3: on a mapper (table length at least 2) with a monotone-non-increasing
smoothed table, a monotone CDF oracle ranging in `[0, 1]`, and a positive
standard deviation, the per-rank probability vector computed inside
`points_to_rank_variance` has exactly `n` entries, sums to exactly 1, and
has all entries nonnegative. -/
theorem claim_C3_probability_mass (ops : NumOps) (tbl : List ℚ) (m : Mapper) (pv pm : ℚ)
    (hmk : mkMapper tbl "gaussian" = .ok m) (h2 : 2 ≤ m.smoothed_points.length)
    (hmono : m.smoothed_points.Pairwise (fun a b => b ≤ a))
    (hcdfmono : ∀ a b : ℚ, a ≤ b → ops.normCdf a ≤ ops.normCdf b)
    (hcdflo : ∀ z : ℚ, 0 ≤ ops.normCdf z) (hcdfhi : ∀ z : ℚ, ops.normCdf z ≤ 1)
    (hpv : 0 < pv) (hsq : 0 < ops.sqrt pv) :
    (rankProbs (binCdfsBranch ops m pv pm)).length = m.ranks.length ∧
    (rankProbs (binCdfsBranch ops m pv pm)).sum = 1 ∧
    (∀ p ∈ rankProbs (binCdfsBranch ops m pv pm), 0 ≤ p) := by
  obtain ⟨hs, hbins, hr, hd⟩ := mkMapper_ok hmk
  have hblen : m.points_bins.length = m.smoothed_points.length - 1 := by
    rw [hbins, binsOf_length, hs]
  have hbranch : binCdfsBranch ops m pv pm = binCdfs ops m pv pm := by
    unfold binCdfsBranch
    rw [if_pos hd]
  have hcne : binCdfs ops m pv pm ≠ [] := by
    intro hc
    have hlc := congrArg List.length hc
    rw [binCdfs_length, List.length_nil, hblen] at hlc
    omega
  have hbinsmono : m.points_bins.Pairwise (fun a b => b ≤ a) := by
    rw [hbins]
    rw [hs] at hmono
    exact binsOf_pairwise _ hmono
  refine ⟨?_, ?_, ?_⟩
  · rw [hs] at h2
    rw [hbranch, rankProbs_length _ hcne, binCdfs_length, hblen, hr, ranksOf_length, hs]
    omega
  · rw [hbranch, rankProbs_sum _ hcne]
  · rw [hbranch]
    exact rankProbs_nonneg _ (binCdfs_pairwise ops m pv pm hbinsmono hcdfmono hsq)
      (binCdfs_bounds ops m pv pm hcdflo hcdfhi)

/-- Witness for C3 at concrete inputs, using the clamped-linear CDF
stand-in. -/
theorem claim_C3_witness :
    (rankProbs (binCdfsBranch testOps M4 1 7)).length = M4.ranks.length ∧
    (rankProbs (binCdfsBranch testOps M4 1 7)).sum = 1 ∧
    0 ≤ (rankProbs (binCdfsBranch testOps M4 1 7)).getD 0 0 := by
  obtain ⟨h1, h2, h3⟩ := claim_C3_probability_mass testOps tbl4 M4 1 7 M4_mk
    (by norm_num [M4]) (by norm_num [M4, List.pairwise_cons])
    (fun a b h => clampCdf_mono a b h) (fun z => clampCdf_nonneg z) (fun z => clampCdf_le_one z)
    (by norm_num) (ratSqrt_pos (by norm_num))
  refine ⟨h1, h2, ?_⟩
  apply h3
  apply getD_mem
  have hbr : binCdfsBranch testOps M4 1 7 = binCdfs testOps M4 1 7 := by
    unfold binCdfsBranch
    norm_num [M4]
  have hne4 : binCdfs testOps M4 1 7 ≠ [] := by
    intro hc
    have hlc := congrArg List.length hc
    rw [binCdfs_length, List.length_nil] at hlc
    norm_num [M4] at hlc
  rw [hbr, rankProbs_length _ hne4, binCdfs_length]
  norm_num

/-- C5: `rank_confidence_intervals` raises the shape-mismatch `ValueError`
whenever the two vectors differ in length, raises the confidence
`ValueError` whenever `confidence` lies outside `[0, 1]` (both before any
numeric computation: the error is the same for every oracle bundle), and
raises no invalid-input error at the boundary values `confidence = 0` and
`confidence = 1`. -/
theorem claim_C5_validation (ops : NumOps) (tbl : List ℚ) (m : Mapper)
    (rank_means rank_variances : List ℚ) (c : ℚ)
    (hmk : mkMapper tbl "gaussian" = .ok m) (h2 : 2 ≤ m.smoothed_points.length) :
    (rank_means.length ≠ rank_variances.length →
      rank_confidence_intervals ops m rank_means rank_variances c =
        .error (.valueError "Rank Mean shape and Rank Variances shape do not match")) ∧
    (rank_means.length = rank_variances.length → (c < 0 ∨ 1 < c) →
      rank_confidence_intervals ops m rank_means rank_variances c =
        .error (.valueError "Confidence should be in interval of 0-1")) ∧
    (rank_means.length = rank_variances.length → (c = 0 ∨ c = 1) →
      ∀ s : String, rank_confidence_intervals ops m rank_means rank_variances c ≠
        .error (.valueError s)) := by
  obtain ⟨hs, hbins, hr, hd⟩ := mkMapper_ok hmk
  have hblen : m.points_bins.length = m.smoothed_points.length - 1 := by
    rw [hbins, binsOf_length, hs]
  refine ⟨?_, ?_, ?_⟩
  · intro hne
    unfold rank_confidence_intervals
    rw [if_pos hne]
  · intro hleq hout
    have hcc : ¬ (0 ≤ c ∧ c ≤ 1) := by
      rintro ⟨ha, hb⟩
      rcases hout with h | h <;> linarith
    unfold rank_confidence_intervals
    rw [if_neg (not_not_intro hleq), if_pos hcc]
  · intro hleq hc01 s
    have hcc : 0 ≤ c ∧ c ≤ 1 := by
      rcases hc01 with rfl | rfl <;> norm_num
    unfold rank_confidence_intervals
    rw [if_neg (not_not_intro hleq), if_neg (not_not_intro hcc)]
    rcases solveVariances_or ops m hd h2 hblen (rank_means.zip rank_variances)
      with ⟨vs, hvs⟩ | hvs
    · simp [hvs, hd]
    · simp [hvs]

/-- Witness for C5 at concrete inputs: a shape mismatch, an out-of-range
confidence, and the boundary confidence 1. -/
theorem claim_C5_witness :
    rank_confidence_intervals testOps M4 [1] [1, 2] (1 / 2) =
      .error (.valueError "Rank Mean shape and Rank Variances shape do not match") ∧
    rank_confidence_intervals testOps M4 [1] [1] 2 =
      .error (.valueError "Confidence should be in interval of 0-1") ∧
    rank_confidence_intervals testOps M4 [1] [1] 1 ≠
      .error (.valueError "Confidence should be in interval of 0-1") := by
  refine ⟨?_, ?_, ?_⟩
  · exact (claim_C5_validation testOps tbl4 M4 [1] [1, 2] (1 / 2) M4_mk
      (by norm_num [M4])).1 (by norm_num)
  · exact (claim_C5_validation testOps tbl4 M4 [1] [1] 2 M4_mk
      (by norm_num [M4])).2.1 rfl (Or.inr (by norm_num))
  · exact (claim_C5_validation testOps tbl4 M4 [1] [1] 1 M4_mk
      (by norm_num [M4])).2.2 rfl (Or.inr rfl) _

/-- C2: on every valid query that succeeds (equal-length vectors, confidence
in `[0, 1]`, gaussian mapper), row `i` of the output equals
`(points_to_rank_mean (mu_i + stdev_i * z), points_to_rank_mean (mu_i - stdev_i * z))`
with `mu_i = rank_to_points_mean rank_means[i]`, `stdev_i` the square root of
the inverse-solved variance, and `z = normPpf ((1 + confidence) / 2)`; and
for a monotone non-increasing smoothed table (with nonnegative `sqrt` and
nonnegative `z`), column 0 holds the numerically smaller rank value. -/
theorem claim_C2_interval_rows (ops : NumOps) (tbl : List ℚ) (m : Mapper)
    (rank_means rank_variances : List ℚ) (confidence : ℚ) (out : List (ℚ × ℚ)) (i : ℕ)
    (hmk : mkMapper tbl "gaussian" = .ok m)
    (hmono : m.smoothed_points.Pairwise (fun a b => b ≤ a))
    (hsqrt : ∀ q : ℚ, 0 ≤ ops.sqrt q)
    (hppf : 0 ≤ ops.normPpf ((1 + confidence) / 2))
    (hout : rank_confidence_intervals ops m rank_means rank_variances confidence = .ok out)
    (hi : i < rank_means.length) :
    out.length = rank_means.length ∧
    ∃ v, rank_to_points_variance ops m (rank_variances.getD i 0) (rank_means.getD i 0) = .ok v ∧
      out.getD i (0, 0) =
        (points_to_rank_mean m (rank_to_points_mean m (rank_means.getD i 0) +
            ops.sqrt v * ops.normPpf ((1 + confidence) / 2)),
         points_to_rank_mean m (rank_to_points_mean m (rank_means.getD i 0) -
            ops.sqrt v * ops.normPpf ((1 + confidence) / 2))) ∧
      (out.getD i (0, 0)).1 ≤ (out.getD i (0, 0)).2 := by
  obtain ⟨hs, hbins, hr, hd⟩ := mkMapper_ok hmk
  have hslen : (smoothPoints tbl).length = m.smoothed_points.length := by rw [hs]
  have hrn : m.ranks = ranksOf m.smoothed_points.length := by rw [hr, hslen]
  unfold rank_confidence_intervals at hout
  by_cases hne : rank_means.length ≠ rank_variances.length
  · rw [if_pos hne] at hout
    exact absurd hout (by simp)
  push_neg at hne
  rw [if_neg (not_not_intro hne)] at hout
  by_cases hcc : 0 ≤ confidence ∧ confidence ≤ 1
  case neg =>
    rw [if_pos hcc] at hout
    exact absurd hout (by simp)
  rw [if_neg (not_not_intro hcc)] at hout
  cases hsv : solveVariances ops m (rank_means.zip rank_variances) with
  | error e =>
    rw [hsv] at hout
    exact absurd hout (by simp)
  | ok solved =>
    rw [hsv] at hout
    simp only [hd, if_true, Except.ok.injEq] at hout
    obtain ⟨hsl, hsolve⟩ := solveVariances_ok ops m _ solved hsv
    have hzl : (rank_means.zip rank_variances).length = rank_means.length := by
      rw [List.length_zip]
      omega
    have hsolvedlen : solved.length = rank_means.length := by rw [hsl, hzl]
    have hLlen : ((rank_means.map (rank_to_points_mean m)).zip
        (solved.map ops.sqrt)).length = rank_means.length := by
      rw [List.length_zip, List.length_map, List.length_map, hsolvedlen, min_self]
    have hv := hsolve i (by rw [hzl]; exact hi)
    rw [getD_zip rank_means rank_variances i 0 0 hi (by omega)] at hv
    have hLi : ((rank_means.map (rank_to_points_mean m)).zip
        (solved.map ops.sqrt)).getD i (0, 0) =
        (rank_to_points_mean m (rank_means.getD i 0), ops.sqrt (solved.getD i 0)) := by
      rw [getD_zip _ _ i 0 0 (by simpa using hi)
        (by rw [List.length_map, hsolvedlen]; exact hi)]
      rw [getD_map _ _ i 0 0 hi, getD_map _ _ i 0 0 (by rw [hsolvedlen]; exact hi)]
    subst hout
    have hrow : ((((rank_means.map (rank_to_points_mean m)).zip (solved.map ops.sqrt)).map
          (fun ms => points_to_rank_mean m
            (ms.1 + ms.2 * ops.normPpf ((1 + confidence) / 2)))).zip
        (((rank_means.map (rank_to_points_mean m)).zip (solved.map ops.sqrt)).map
          (fun ms => points_to_rank_mean m
            (ms.1 - ms.2 * ops.normPpf ((1 + confidence) / 2))))).getD i (0, 0) =
        (points_to_rank_mean m (rank_to_points_mean m (rank_means.getD i 0) +
            ops.sqrt (solved.getD i 0) * ops.normPpf ((1 + confidence) / 2)),
         points_to_rank_mean m (rank_to_points_mean m (rank_means.getD i 0) -
            ops.sqrt (solved.getD i 0) * ops.normPpf ((1 + confidence) / 2))) := by
      rw [getD_zip _ _ i 0 0 (by rw [List.length_map, hLlen]; exact hi)
        (by rw [List.length_map, hLlen]; exact hi)]
      rw [getD_map _ _ i (0, 0) 0 (by rw [hLlen]; exact hi),
        getD_map _ _ i (0, 0) 0 (by rw [hLlen]; exact hi), hLi]
    refine ⟨?_, solved.getD i 0, hv, hrow, ?_⟩
    · rw [List.length_zip, List.length_map, List.length_map, hLlen, min_self]
    · rw [hrow]
      have hz : 0 ≤ ops.sqrt (solved.getD i 0) * ops.normPpf ((1 + confidence) / 2) :=
        mul_nonneg (hsqrt _) hppf
      exact points_to_rank_mean_anti m hrn hmono (by linarith)

/-- Witness for C2 at a concrete successful query. -/
theorem claim_C2_witness :
    ([((1 : ℚ), (7 / 2 : ℚ))] : List (ℚ × ℚ)).length = [(2 : ℚ)].length ∧
    ∃ v, rank_to_points_variance testOps M4 ([(1 : ℚ)].getD 0 0) ([(2 : ℚ)].getD 0 0) =
        .ok v ∧
      ([((1 : ℚ), (7 / 2 : ℚ))] : List (ℚ × ℚ)).getD 0 (0, 0) =
        (points_to_rank_mean M4 (rank_to_points_mean M4 ([(2 : ℚ)].getD 0 0) +
            testOps.sqrt v * testOps.normPpf ((1 + 1 / 2) / 2)),
         points_to_rank_mean M4 (rank_to_points_mean M4 ([(2 : ℚ)].getD 0 0) -
            testOps.sqrt v * testOps.normPpf ((1 + 1 / 2) / 2))) ∧
      (([((1 : ℚ), (7 / 2 : ℚ))] : List (ℚ × ℚ)).getD 0 (0, 0)).1 ≤
        (([((1 : ℚ), (7 / 2 : ℚ))] : List (ℚ × ℚ)).getD 0 (0, 0)).2 :=
  claim_C2_interval_rows testOps tbl4 M4 [2] [1] (1 / 2) [(1, 7 / 2)] 0 M4_mk
    (by norm_num [M4, List.pairwise_cons]) (fun q => ratSqrt_nonneg q)
    (by norm_num [testOps])
    (by norm_num [rank_confidence_intervals, solveVariances, rank_to_points_variance,
      points_to_rank_variance, points_to_rank_variance_val, binCdfsBranch, binCdfs,
      initialVarGuess, rankVarObjective, testOps, M4, clampCdf, ratSqrt, rankProbs, negDiff,
      points_to_rank_mean, rank_to_points_mean, ratInterp, max_def, min_def])
    (by norm_num)
